import Mathlib

/-!
Verification of the spherical capture-guidance engine of the `space-clone`
repository: the 22-point capture-position catalog, its adjacency graph, the
alignment evaluator, the next-position selector, the session reset action and
the two projections (orthographic minimap, pinhole grid overlay).

Angles that the source manipulates as JS numbers are embedded as rationals
(`ℚ`) where the claims quantify over arbitrary sensor inputs, and as integers
(`ℤ`) for the static catalog values; the trigonometric projections are
embedded over `ℝ`.
-/

namespace SpaceClone

/-! ### Data model (src/web/src/lib/capture-positions.ts) -/

/-- Ring names of the five latitude bands, from `type RingName`. -/
inductive RingName where
  | zenith
  | upper
  | equator
  | lower
  | nadir
deriving DecidableEq, Repr

/-- One catalog slot, from `interface CapturePosition`. Headings and pitches
in the catalog are whole degrees, embedded as `ℤ`. -/
structure CapturePosition where
  index : ℕ
  ring : RingName
  heading : ℤ
  pitch : ℤ
  label : String
deriving Repr, DecidableEq

/-- Equator labels array, from `eqLabels` in `buildPositions`. -/
def eqLabels : List String :=
  ["Front", "Front-Right", "Right", "Back-Right", "Back",
   "Back-Left", "Left", "Front-Left"]

/-- The catalog builder, from `buildPositions()`: zenith, then 6 upper-ring
slots 60° apart, 8 equator slots 45° apart, 6 lower-ring slots 60° apart
offset 30°, then nadir, with a running index counter. -/
def buildPositions : List CapturePosition :=
  [⟨0, RingName.zenith, 0, 90, "Ceiling"⟩]
    ++ (List.range 6).map (fun i =>
        ⟨1 + i, RingName.upper, (i : ℤ) * 60, 55,
          "Upper " ++ toString (i + 1) ++ "/6"⟩)
    ++ (List.range 8).map (fun i =>
        ⟨7 + i, RingName.equator, (i : ℤ) * 45, 0, eqLabels.getD i ("")⟩)
    ++ (List.range 6).map (fun i =>
        ⟨15 + i, RingName.lower, (i : ℤ) * 60 + 30, -55,
          "Lower " ++ toString (i + 1) ++ "/6"⟩)
    ++ [⟨21, RingName.nadir, 0, -90, "Floor"⟩]

/-- From `export const CAPTURE_POSITIONS = buildPositions()`. -/
def CAPTURE_POSITIONS : List CapturePosition := buildPositions

/-- From `export const TOTAL_POSITIONS = CAPTURE_POSITIONS.length`. -/
def TOTAL_POSITIONS : ℕ := CAPTURE_POSITIONS.length

/-- JS array indexing `CAPTURE_POSITIONS[i]`: a defined element for
`0 ≤ i < length`, `undefined` (here `none`) otherwise. -/
def catalogGet (i : ℤ) : Option CapturePosition :=
  if 0 ≤ i then CAPTURE_POSITIONS.get? i.toNat else none

/-! ### Smallest-angle difference (`angleDiff`) -/

/-- From `angleDiff(a, b)`: `d = |a-b| % 360; if (d > 180) d = 360 - d`.
JS `%` on the non-negative dividend `|a-b|` equals
`x - 360·⌊x/360⌋`. -/
def angleDiff (a b : ℚ) : ℚ :=
  let d := |a - b| - 360 * (⌊|a - b| / 360⌋ : ℚ)
  if d > 180 then 360 - d else d

/-- Integer twin of `angleDiff`, used to evaluate the static adjacency graph
(whose inputs are the integer catalog headings) inside the kernel. It agrees
with `angleDiff` on integer inputs (`angleDiffInt_cast`). -/
def angleDiffInt (a b : ℤ) : ℤ :=
  let d := |a - b| % 360
  if d > 180 then 360 - d else d

/-- The integer twin computes the same value as the rational `angleDiff`
on integer arguments. -/
theorem angleDiffInt_cast (a b : ℤ) :
    ((angleDiffInt a b : ℤ) : ℚ) = angleDiff (a : ℚ) (b : ℚ) := by
  have habs : |(a : ℚ) - (b : ℚ)| = ((|a - b| : ℤ) : ℚ) := by push_cast; ring_nf
  have hfloor : (⌊|(a : ℚ) - (b : ℚ)| / 360⌋ : ℤ) = |a - b| / 360 := by
    rw [habs]
    rw [(by norm_num : ((360 : ℚ)) = ((360 : ℕ) : ℚ)), Rat.floor_intCast_div_natCast]
    norm_num
  have hemod : ((|a - b| % 360 : ℤ) : ℚ)
      = |(a : ℚ) - (b : ℚ)| - 360 * (⌊|(a : ℚ) - (b : ℚ)| / 360⌋ : ℚ) := by
    rw [hfloor, habs, Int.emod_def]
    push_cast
    ring
  simp only [angleDiff, angleDiffInt]
  rw [← hemod]
  by_cases h : ((180 : ℤ)) < |a - b| % 360
  · rw [if_pos h, if_pos (by exact_mod_cast h)]
    push_cast
    ring
  · rw [if_neg h, if_neg (by exact_mod_cast h)]

/-! ### Adjacency graph (`buildAdjacency`, `getAdjacentPositions`) -/

/-- The neighbor condition of `buildAdjacency` for an ordered pair of distinct
positions `a = p[i]`, `b = p[j]`: the if / else-if chain over same-ring,
pole-to-adjacent-ring and cross-ring clauses. -/
def adjacentPair (a b : CapturePosition) : Bool :=
  let hDiff := angleDiffInt a.heading b.heading
  if a.ring = b.ring ∧ a.ring = RingName.equator ∧ hDiff ≤ 50 then true
  else if a.ring = b.ring ∧ a.ring ≠ RingName.equator ∧
      a.ring ≠ RingName.zenith ∧ a.ring ≠ RingName.nadir ∧ hDiff ≤ 65 then true
  else if (a.ring = RingName.zenith ∧ b.ring = RingName.upper) ∨
      (a.ring = RingName.nadir ∧ b.ring = RingName.lower) then true
  else if (b.ring = RingName.zenith ∧ a.ring = RingName.upper) ∨
      (b.ring = RingName.nadir ∧ a.ring = RingName.lower) then true
  else if ((a.ring = RingName.upper ∧ b.ring = RingName.equator) ∨
      (a.ring = RingName.equator ∧ b.ring = RingName.upper) ∨
      (a.ring = RingName.equator ∧ b.ring = RingName.lower) ∨
      (a.ring = RingName.lower ∧ b.ring = RingName.equator)) ∧ hDiff ≤ 35 then true
  else false

/-- The inner loop of `buildAdjacency` for one position: every other catalog
position satisfying the neighbor condition, in catalog order. -/
def neighborsOf (a : CapturePosition) : List ℕ :=
  (CAPTURE_POSITIONS.filter
    (fun b => decide (b.index ≠ a.index) && adjacentPair a b)).map
    (fun b => b.index)

/-- From `getAdjacentPositions(positionIndex)`:
`ADJACENCY_MAP.get(positionIndex) ?? []` — the precomputed row for a catalog
index, the empty list for any other index. -/
def getAdjacentPositions (positionIndex : ℤ) : List ℕ :=
  match catalogGet positionIndex with
  | some a => neighborsOf a
  | none => []

/-! ### Spec-side catalog shape (from the claim wording) -/

/-- Ring of catalog slot `i` as the spec describes it. -/
def specRing (i : ℕ) : RingName :=
  if i = 0 then RingName.zenith
  else if i ≤ 6 then RingName.upper
  else if i ≤ 14 then RingName.equator
  else if i ≤ 20 then RingName.lower
  else RingName.nadir

/-- Heading of catalog slot `i` as the spec describes it: 0 at the poles,
`i·60` on the upper ring, `i·45` on the equator, `i·60+30` on the lower
ring (each `i` counted from the start of its own ring). -/
def specHeading (i : ℕ) : ℤ :=
  if i = 0 then 0
  else if i ≤ 6 then ((i : ℤ) - 1) * 60
  else if i ≤ 14 then ((i : ℤ) - 7) * 45
  else if i ≤ 20 then ((i : ℤ) - 15) * 60 + 30
  else 0

/-- Pitch of catalog slot `i` as the spec describes it: 90, 55, 0, −55, −90
by ring. -/
def specPitch (i : ℕ) : ℤ :=
  if i = 0 then 90
  else if i ≤ 6 then 55
  else if i ≤ 14 then 0
  else if i ≤ 20 then -55
  else -90

/-! ### Claim C1: catalog shape -/

/-- C1: `buildPositions()` returns exactly 22 entries, indices 0..21 in
emission order; slot 0 is the zenith (pitch 90, heading 0), slots 1..6 the
upper ring (pitch 55, heading i·60), slots 7..14 the equator (pitch 0,
heading i·45), slots 15..20 the lower ring (pitch −55, heading i·60+30) and
slot 21 the nadir (pitch −90, heading 0). -/
theorem buildPositions_catalog_shape :
    buildPositions.length = 22 ∧
    buildPositions.map (fun p => p.index) = List.range 22 ∧
    ∀ i : Fin 22,
      (buildPositions.map (fun p => (p.ring, p.heading, p.pitch))).get? (i : ℕ)
        = some (specRing i, specHeading i, specPitch i) := by
  refine ⟨by decide, by decide, by decide⟩

/-! ### Claim C5: adjacency degree bounds -/

/-- C5: in the adjacency graph, no position lists itself as a neighbor, the
zenith and nadir rows each have exactly 6 entries, and every non-polar row
has between 3 and 6 entries inclusive. -/
theorem adjacency_degree_bounds :
    ∀ i : Fin 22,
      (getAdjacentPositions (i : ℤ)).contains (i : ℕ) = false ∧
      (if specRing i = RingName.zenith ∨ specRing i = RingName.nadir
       then (getAdjacentPositions (i : ℤ)).length = 6
       else 3 ≤ (getAdjacentPositions (i : ℤ)).length ∧
         (getAdjacentPositions (i : ℤ)).length ≤ 6) := by
  decide

/-! ### Claim C10: adjacency symmetry -/

/-- C10: the adjacency graph actually built is exactly symmetric — for all
catalog indices `i`, `j`, `j` is listed as a neighbor of `i` precisely when
`i` is listed as a neighbor of `j`. -/
theorem adjacency_symmetric :
    ∀ i j : Fin 22,
      (getAdjacentPositions (i : ℤ)).contains (j : ℕ)
        = (getAdjacentPositions (j : ℤ)).contains (i : ℕ) := by
  decide

/-! ### JS truncated remainder (`%` on possibly-negative operands) -/

/-- JS number-to-integer truncation toward zero. -/
def jsTrunc (q : ℚ) : ℤ := if 0 ≤ q then ⌊q⌋ else ⌈q⌉

/-- The JS `%` operator: remainder after truncated division. -/
def jsMod (x y : ℚ) : ℚ := x - y * (jsTrunc (x / y) : ℤ)

theorem jsMod_eq_sub (x : ℚ) : jsMod x 360 = x - 360 * (jsTrunc (x / 360) : ℤ) := rfl

theorem jsMod_self_of_lt {x : ℚ} (h0 : 0 ≤ x) (hlt : x < 360) : jsMod x 360 = x := by
  have hq0 : 0 ≤ x / 360 := by positivity
  have hq1 : x / 360 < 1 := by
    rw [div_lt_one (by norm_num : (0:ℚ) < 360)]
    linarith
  have : jsTrunc (x / 360) = 0 := by
    rw [jsTrunc, if_pos hq0, Int.floor_eq_zero_iff]
    exact ⟨hq0, hq1⟩
  rw [jsMod_eq_sub, this]
  push_cast
  ring

/-! ### Characterization of `angleDiff` as the smallest-angle difference -/

theorem floorMod_nonneg (x : ℚ) : 0 ≤ |x| - 360 * (⌊|x| / 360⌋ : ℚ) := by
  have h : (⌊|x| / 360⌋ : ℚ) ≤ |x| / 360 := Int.floor_le _
  have h2 : 360 * (|x| / 360) = |x| := by field_simp
  nlinarith

theorem floorMod_lt (x : ℚ) : |x| - 360 * (⌊|x| / 360⌋ : ℚ) < 360 := by
  have h : |x| / 360 < (⌊|x| / 360⌋ : ℚ) + 1 := Int.lt_floor_add_one _
  have h2 : 360 * (|x| / 360) = |x| := by field_simp
  nlinarith

/-- `angleDiff` always lands in the interval [0, 180]. -/
theorem angleDiff_mem (a b : ℚ) : 0 ≤ angleDiff a b ∧ angleDiff a b ≤ 180 := by
  have h0 := floorMod_nonneg (a - b)
  have h1 := floorMod_lt (a - b)
  simp only [angleDiff]
  by_cases h : |a - b| - 360 * (⌊|a - b| / 360⌋ : ℚ) > 180
  · rw [if_pos h]
    constructor <;> linarith
  · rw [if_neg h]
    push_neg at h
    exact ⟨h0, h⟩

/-- `angleDiff a b` is realized as `|a - b - 360k|` for some integer `k`. -/
theorem angleDiff_exists_rep (a b : ℚ) :
    ∃ k : ℤ, angleDiff a b = |a - b - 360 * (k : ℚ)| := by
  have h0 := floorMod_nonneg (a - b)
  have h1 := floorMod_lt (a - b)
  simp only [angleDiff]
  set m := ⌊|a - b| / 360⌋ with hm
  by_cases hx : 0 ≤ a - b
  · have habs : |a - b| = a - b := abs_of_nonneg hx
    by_cases h : |a - b| - 360 * (m : ℚ) > 180
    · refine ⟨m + 1, ?_⟩
      rw [if_pos h]
      have hneg : a - b - 360 * ((m + 1 : ℤ) : ℚ) < 0 := by push_cast; linarith
      rw [abs_of_neg hneg]
      push_cast
      linarith
    · refine ⟨m, ?_⟩
      rw [if_neg h]
      have hnn : 0 ≤ a - b - 360 * ((m : ℤ) : ℚ) := by linarith
      rw [abs_of_nonneg hnn]
      linarith
  · have habs : |a - b| = -(a - b) := abs_of_neg (lt_of_not_le hx)
    by_cases h : |a - b| - 360 * (m : ℚ) > 180
    · refine ⟨-(m + 1), ?_⟩
      rw [if_pos h]
      have hnn : 0 ≤ a - b - 360 * ((-(m + 1) : ℤ) : ℚ) := by push_cast; linarith
      rw [abs_of_nonneg hnn]
      push_cast [habs] at h0 h1 h ⊢
      linarith
    · refine ⟨-m, ?_⟩
      rw [if_neg h]
      have hnp : a - b - 360 * ((-m : ℤ) : ℚ) ≤ 0 := by push_cast; linarith
      rw [abs_of_nonpos hnp]
      push_cast
      linarith

/-- `angleDiff a b` is minimal among all `|a - b - 360k|`: together with
`angleDiff_exists_rep` and `angleDiff_mem`, this states that it is exactly
the smallest-angle difference, in [0, 180]. -/
theorem angleDiff_min (a b : ℚ) (k : ℤ) :
    angleDiff a b ≤ |a - b - 360 * (k : ℚ)| := by
  obtain ⟨k₀, hk₀⟩ := angleDiff_exists_rep a b
  obtain ⟨hge, hle⟩ := angleDiff_mem a b
  by_cases hkk : k = k₀
  · rw [hkk, ← hk₀]
  · have h1 : (1 : ℤ) ≤ |k - k₀| := Int.one_le_abs (sub_ne_zero.mpr hkk)
    have hΔ : (1 : ℚ) ≤ |(k : ℚ) - (k₀ : ℚ)| := by exact_mod_cast h1
    have habs := abs_sub_abs_le_abs_sub
      ((360 : ℚ) * ((k : ℚ) - (k₀ : ℚ))) (a - b - 360 * (k₀ : ℚ))
    have heq : (360 : ℚ) * ((k : ℚ) - (k₀ : ℚ)) - (a - b - 360 * (k₀ : ℚ))
        = -(a - b - 360 * (k : ℚ)) := by ring
    rw [heq, abs_neg] at habs
    have hmul : |(360 : ℚ) * ((k : ℚ) - (k₀ : ℚ))|
        = 360 * |(k : ℚ) - (k₀ : ℚ)| := by
      rw [abs_mul, abs_of_pos (by norm_num : (0:ℚ) < 360)]
    rw [hmul] at habs
    nlinarith

theorem angleDiff_self (a : ℚ) : angleDiff a a = 0 := by
  simp [angleDiff]

/-- Smallest-angle representation through the truncated-mod target heading:
the delta against `jsMod t 360` is realized against `t` itself. -/
theorem angleDiff_jsMod_exists (c t : ℚ) :
    ∃ k : ℤ, angleDiff c (jsMod t 360) = |c - t - 360 * (k : ℚ)| := by
  obtain ⟨k₀, h⟩ := angleDiff_exists_rep c (jsMod t 360)
  refine ⟨k₀ - jsTrunc (t / 360), ?_⟩
  rw [h, jsMod_eq_sub]
  congr 1
  push_cast
  ring

theorem angleDiff_jsMod_min (c t : ℚ) (k : ℤ) :
    angleDiff c (jsMod t 360) ≤ |c - t - 360 * (k : ℚ)| := by
  have h := angleDiff_min c (jsMod t 360) (k + jsTrunc (t / 360))
  calc angleDiff c (jsMod t 360)
      ≤ |c - jsMod t 360 - 360 * ((k + jsTrunc (t / 360) : ℤ) : ℚ)| := h
    _ = |c - t - 360 * (k : ℚ)| := by
        rw [jsMod_eq_sub]
        congr 1
        push_cast
        ring

/-! ### Alignment evaluator (`isAlignedWithPosition`) -/

/-- Result record, from `interface AlignmentResult`. -/
structure AlignmentResult where
  aligned : Bool
  headingAligned : Bool
  pitchAligned : Bool
  headingDelta : ℚ
  pitchDelta : ℚ
deriving Repr, DecidableEq

/-- The body of `isAlignedWithPosition` once the catalog lookup has
succeeded: pitch delta and tolerance, the zenith/nadir heading-free branch,
and the general heading branch through `jsMod` and `angleDiff`. -/
def alignBody (heading pitch : ℚ) (pos : CapturePosition)
    (startHeading headingTolerance pitchTolerance : ℚ) : AlignmentResult :=
  let pitchDelta := |pitch - (pos.pitch : ℚ)|
  let pitchAligned := decide (pitchDelta ≤ pitchTolerance)
  if pos.ring = RingName.zenith ∨ pos.ring = RingName.nadir then
    ⟨pitchAligned, true, pitchAligned, 0, pitchDelta⟩
  else
    let targetHeading := jsMod (startHeading + (pos.heading : ℚ)) 360
    let headingDelta := angleDiff heading targetHeading
    let headingAligned := decide (headingDelta ≤ headingTolerance)
    ⟨headingAligned && pitchAligned, headingAligned, pitchAligned,
      headingDelta, pitchDelta⟩

/-- From `isAlignedWithPosition(heading, pitch, positionIndex, startHeading,
headingTolerance = 15, pitchTolerance = 15)`; an out-of-catalog index yields
the `{aligned:false, ..., 999, 999}` sentinel. -/
def isAlignedWithPosition (heading pitch : ℚ) (positionIndex : ℤ)
    (startHeading headingTolerance pitchTolerance : ℚ) : AlignmentResult :=
  match catalogGet positionIndex with
  | none => ⟨false, false, false, 999, 999⟩
  | some pos => alignBody heading pitch pos startHeading headingTolerance pitchTolerance

theorem isAligned_some {i : ℤ} {pos : CapturePosition}
    (hsome : catalogGet i = some pos) (heading pitch startHeading hTol pTol : ℚ) :
    isAlignedWithPosition heading pitch i startHeading hTol pTol
      = alignBody heading pitch pos startHeading hTol pTol := by
  unfold isAlignedWithPosition
  rw [hsome]

theorem isAligned_none {i : ℤ} (hnone : catalogGet i = none)
    (heading pitch startHeading hTol pTol : ℚ) :
    isAlignedWithPosition heading pitch i startHeading hTol pTol
      = ⟨false, false, false, 999, 999⟩ := by
  unfold isAlignedWithPosition
  rw [hnone]

theorem catalog_heading_bounds :
    ∀ p ∈ CAPTURE_POSITIONS, 0 ≤ p.heading ∧ p.heading < 360 := by decide

theorem catalogGet_mem {i : ℤ} {pos : CapturePosition}
    (h : catalogGet i = some pos) : pos ∈ CAPTURE_POSITIONS := by
  by_cases h0 : 0 ≤ i
  · rw [catalogGet, if_pos h0] at h
    exact List.get?_mem h
  · rw [catalogGet, if_neg h0] at h
    cases h

/-! ### Claim C2: alignment for non-polar targets -/

/-- C2: for every catalog target outside the poles and all inputs, the
alignment result's `headingDelta` is exactly the smallest-angle difference
(in [0, 180]) between the current heading and the absolute target heading
`startHeading + target.heading` (taken modulo 360), `pitchDelta` is the
absolute pitch difference, the two `aligned` flags compare the deltas to
their tolerances, and `aligned` is their conjunction; in particular every
position is exactly self-aligned at `startHeading = 0`. -/
theorem alignment_non_polar_spec :
    (∀ (i : ℤ) (pos : CapturePosition) (curH curP startH hTol pTol : ℚ),
      catalogGet i = some pos →
      pos.ring ≠ RingName.zenith → pos.ring ≠ RingName.nadir →
      (0 ≤ (isAlignedWithPosition curH curP i startH hTol pTol).headingDelta ∧
        (isAlignedWithPosition curH curP i startH hTol pTol).headingDelta ≤ 180) ∧
      (∃ k : ℤ, (isAlignedWithPosition curH curP i startH hTol pTol).headingDelta
          = |curH - (startH + (pos.heading : ℚ)) - 360 * (k : ℚ)|) ∧
      (∀ k : ℤ, (isAlignedWithPosition curH curP i startH hTol pTol).headingDelta
          ≤ |curH - (startH + (pos.heading : ℚ)) - 360 * (k : ℚ)|) ∧
      (isAlignedWithPosition curH curP i startH hTol pTol).pitchDelta
          = |curP - (pos.pitch : ℚ)| ∧
      (isAlignedWithPosition curH curP i startH hTol pTol).headingAligned
          = decide ((isAlignedWithPosition curH curP i startH hTol pTol).headingDelta ≤ hTol) ∧
      (isAlignedWithPosition curH curP i startH hTol pTol).pitchAligned
          = decide ((isAlignedWithPosition curH curP i startH hTol pTol).pitchDelta ≤ pTol) ∧
      (isAlignedWithPosition curH curP i startH hTol pTol).aligned
          = ((isAlignedWithPosition curH curP i startH hTol pTol).headingAligned
             && (isAlignedWithPosition curH curP i startH hTol pTol).pitchAligned)) ∧
    (∀ (i : ℤ) (pos : CapturePosition), catalogGet i = some pos →
      isAlignedWithPosition (pos.heading : ℚ) (pos.pitch : ℚ) i 0 15 15
        = ⟨true, true, true, 0, 0⟩) := by
  constructor
  · intro i pos curH curP startH hTol pTol h hz hn
    have hcase : isAlignedWithPosition curH curP i startH hTol pTol
        = ⟨decide (angleDiff curH (jsMod (startH + (pos.heading : ℚ)) 360) ≤ hTol)
            && decide (|curP - (pos.pitch : ℚ)| ≤ pTol),
           decide (angleDiff curH (jsMod (startH + (pos.heading : ℚ)) 360) ≤ hTol),
           decide (|curP - (pos.pitch : ℚ)| ≤ pTol),
           angleDiff curH (jsMod (startH + (pos.heading : ℚ)) 360),
           |curP - (pos.pitch : ℚ)|⟩ := by
      rw [isAligned_some h]
      simp only [alignBody]
      rw [if_neg (not_or.mpr ⟨hz, hn⟩)]
    rw [hcase]
    exact ⟨⟨(angleDiff_mem _ _).1, (angleDiff_mem _ _).2⟩,
      angleDiff_jsMod_exists _ _, fun k => angleDiff_jsMod_min _ _ k,
      rfl, rfl, rfl, rfl⟩
  · intro i pos h
    have hmem := catalogGet_mem h
    obtain ⟨hh0, hh360⟩ := catalog_heading_bounds pos hmem
    rw [isAligned_some h]
    simp only [alignBody]
    by_cases hr : pos.ring = RingName.zenith ∨ pos.ring = RingName.nadir
    · rw [if_pos hr]
      simp only [sub_self, abs_zero, AlignmentResult.mk.injEq, decide_eq_true_eq]
      norm_num
    · rw [if_neg hr, zero_add,
        jsMod_self_of_lt (by exact_mod_cast hh0) (by exact_mod_cast hh360),
        angleDiff_self]
      simp only [sub_self, abs_zero, AlignmentResult.mk.injEq, Bool.and_eq_true,
        decide_eq_true_eq]
      norm_num

theorem alignment_non_polar_spec_witness :
    (isAlignedWithPosition 30 10 7 0 15 15).pitchDelta = |10 - ((0 : ℤ) : ℚ)| ∧
    (isAlignedWithPosition 30 10 7 0 15 15).aligned
      = ((isAlignedWithPosition 30 10 7 0 15 15).headingAligned
         && (isAlignedWithPosition 30 10 7 0 15 15).pitchAligned) := by
  have h := alignment_non_polar_spec.1 7 ⟨7, RingName.equator, 0, 0, "Front"⟩
    30 10 0 15 15 (by rfl) (by decide) (by decide)
  exact ⟨h.2.2.2.1, h.2.2.2.2.2.2⟩

/-! ### Claim C6: polar targets ignore heading -/

/-- C6: for the zenith and nadir targets, the alignment evaluator ignores
heading entirely: `headingAligned` is reported `true`, `headingDelta` is
reported 0 and `aligned` equals `pitchAligned` for all inputs; in particular
an exactly-up pitch of 90 against target index 0 is aligned for every
heading and every start heading. -/
theorem alignment_polar_ignores_heading :
    (∀ (i : ℤ) (pos : CapturePosition) (curH curP startH hTol pTol : ℚ),
      catalogGet i = some pos →
      (pos.ring = RingName.zenith ∨ pos.ring = RingName.nadir) →
      isAlignedWithPosition curH curP i startH hTol pTol
        = ⟨decide (|curP - (pos.pitch : ℚ)| ≤ pTol), true,
           decide (|curP - (pos.pitch : ℚ)| ≤ pTol), 0, |curP - (pos.pitch : ℚ)|⟩) ∧
    (∀ curH startH : ℚ,
      (isAlignedWithPosition curH 90 0 startH 15 15).aligned = true) := by
  have main : ∀ (i : ℤ) (pos : CapturePosition) (curH curP startH hTol pTol : ℚ),
      catalogGet i = some pos →
      (pos.ring = RingName.zenith ∨ pos.ring = RingName.nadir) →
      isAlignedWithPosition curH curP i startH hTol pTol
        = ⟨decide (|curP - (pos.pitch : ℚ)| ≤ pTol), true,
           decide (|curP - (pos.pitch : ℚ)| ≤ pTol), 0, |curP - (pos.pitch : ℚ)|⟩ := by
    intro i pos curH curP startH hTol pTol h hr
    rw [isAligned_some h]
    simp only [alignBody]
    rw [if_pos hr]
  refine ⟨main, fun curH startH => ?_⟩
  rw [main 0 ⟨0, RingName.zenith, 0, 90, "Ceiling"⟩ curH 90 startH 15 15 rfl
    (Or.inl rfl)]
  simp only [decide_eq_true_eq]
  norm_num

theorem alignment_polar_witness :
    isAlignedWithPosition 123 (-80) 21 7 15 15
      = ⟨decide (|(-80 : ℚ) - ((-90 : ℤ) : ℚ)| ≤ 15), true,
         decide (|(-80 : ℚ) - ((-90 : ℤ) : ℚ)| ≤ 15), 0,
         |(-80 : ℚ) - ((-90 : ℤ) : ℚ)|⟩ :=
  alignment_polar_ignores_heading.1 21 ⟨21, RingName.nadir, 0, -90, "Floor"⟩
    123 (-80) 7 15 15 rfl (Or.inr rfl)

/-! ### Claim C8: out-of-catalog indices are total no-ops -/

/-- C8: for every index outside 0..21, the alignment evaluator returns the
`{aligned:false, headingAligned:false, pitchAligned:false, 999, 999}`
sentinel for all other arguments, and `getAdjacentPositions` returns the
empty neighbor list; neither throws. -/
theorem invalid_index_is_noop :
    ∀ i : ℤ, (i < 0 ∨ 22 ≤ i) →
      (∀ curH curP startH hTol pTol : ℚ,
        isAlignedWithPosition curH curP i startH hTol pTol
          = ⟨false, false, false, 999, 999⟩) ∧
      getAdjacentPositions i = [] := by
  intro i hi
  have hnone : catalogGet i = none := by
    rcases hi with hneg | hge
    · rw [catalogGet, if_neg (by omega)]
    · rw [catalogGet, if_pos (by omega)]
      have hlen : CAPTURE_POSITIONS.length = 22 := by decide
      have : CAPTURE_POSITIONS.length ≤ i.toNat := by omega
      exact List.get?_eq_none.mpr this
  constructor
  · intro curH curP startH hTol pTol
    exact isAligned_none hnone curH curP startH hTol pTol
  · rw [getAdjacentPositions, hnone]

theorem invalid_index_is_noop_witness :
    isAlignedWithPosition 0 0 (-1) 0 15 15 = ⟨false, false, false, 999, 999⟩ ∧
    getAdjacentPositions (-1) = [] := by
  have h := invalid_index_is_noop (-1) (Or.inl (by norm_num))
  exact ⟨h.1 0 0 0 15 15, h.2⟩

/-! ### Next-position selector (`getNextUncaptured`) -/

/-- From `const RING_PRIORITY`: equator, upper, lower, zenith, nadir. -/
def RING_PRIORITY : List RingName :=
  [RingName.equator, RingName.upper, RingName.lower, RingName.zenith, RingName.nadir]

/-- The weighted angular distance of the selector loop:
`hDiff + pDiff * 1.5` against the absolute target heading. -/
def weightedDist (curH curP startH : ℚ) (c : CapturePosition) : ℚ :=
  angleDiff curH (jsMod (startH + (c.heading : ℚ)) 360) + |curP - (c.pitch : ℚ)| * 1.5

/-- The `for (const c of candidates)` loop of `getNextUncaptured`, carrying
the current best candidate and its distance (`none` models the initial
`best = null`, whose `Infinity` distance every real distance beats). -/
def bestLoop (dist : CapturePosition → ℚ) :
    List CapturePosition → Option (CapturePosition × ℚ) → Option (CapturePosition × ℚ)
  | [], acc => acc
  | c :: rest, acc =>
    match acc with
    | none => bestLoop dist rest (some (c, dist c))
    | some (b, bd) =>
      if dist c < bd then bestLoop dist rest (some (c, dist c))
      else bestLoop dist rest (some (b, bd))

/-- The per-ring candidate filter of `getNextUncaptured`: positions of the
ring not yet captured, in catalog order. -/
def ringCandidates (captured : List ℕ) (r : RingName) : List CapturePosition :=
  CAPTURE_POSITIONS.filter
    (fun p => decide (p.ring = r) && !(captured.contains p.index))

/-- The ring-priority scan of `getNextUncaptured`. -/
def nextUncapturedGo (captured : List ℕ) (curH curP startH : ℚ) :
    List RingName → Option ℕ
  | [] => none
  | r :: rs =>
    let cands := ringCandidates captured r
    if cands.length = 0 then nextUncapturedGo captured curH curP startH rs
    else
      match bestLoop (weightedDist curH curP startH) cands none with
      | some (b, _) => some b.index
      | none => nextUncapturedGo captured curH curP startH rs

/-- From `getNextUncaptured(capturedSet, currentHeading, currentPitch,
startHeading)`. -/
def getNextUncaptured (captured : List ℕ) (curH curP startH : ℚ) : Option ℕ :=
  nextUncapturedGo captured curH curP startH RING_PRIORITY

/-- Spec-side: the first ring in priority order still holding an uncaptured
position. -/
def firstUncapturedRing (captured : List ℕ) : Option RingName :=
  RING_PRIORITY.find?
    (fun r => CAPTURE_POSITIONS.any
      (fun p => decide (p.ring = r) && !(captured.contains p.index)))

theorem catalog_pairwise_index :
    List.Pairwise (fun x y : CapturePosition => x.index < y.index)
      CAPTURE_POSITIONS := by decide

theorem catalog_index_lt : ∀ p ∈ CAPTURE_POSITIONS, p.index < 22 := by decide

theorem catalog_index_surj :
    ∀ i : Fin 22, ∃ p ∈ CAPTURE_POSITIONS, p.index = (i : ℕ) := by decide

theorem mem_ringCandidates {captured : List ℕ} {r : RingName}
    {p : CapturePosition} :
    p ∈ ringCandidates captured r ↔
      p ∈ CAPTURE_POSITIONS ∧ p.ring = r ∧ captured.contains p.index = false := by
  simp [ringCandidates, List.mem_filter, Bool.and_eq_true, decide_eq_true_eq,
    Bool.not_eq_true', and_assoc]

theorem ringCandidates_pairwise (captured : List ℕ) (r : RingName) :
    List.Pairwise (fun x y : CapturePosition => x.index < y.index)
      (ringCandidates captured r) :=
  catalog_pairwise_index.sublist (List.filter_sublist _)

theorem ringCandidates_empty_iff (captured : List ℕ) (r : RingName) :
    ringCandidates captured r = [] ↔
      CAPTURE_POSITIONS.any
        (fun p => decide (p.ring = r) && !(captured.contains p.index)) = false := by
  rw [ringCandidates, List.filter_eq_nil_iff]
  rw [← Bool.not_eq_true, List.any_eq_true]
  push_neg
  constructor
  · intro h x hx
    exact h x hx
  · intro h x hx
    exact h x hx

theorem bestLoop_some (dist : CapturePosition → ℚ) :
    ∀ (l : List CapturePosition) (b : CapturePosition) (bd : ℚ),
      ∃ b' bd', bestLoop dist l (some (b, bd)) = some (b', bd') := by
  intro l
  induction l with
  | nil => exact fun b bd => ⟨b, bd, rfl⟩
  | cons c rest ih =>
    intro b bd
    rw [bestLoop]
    by_cases h : dist c < bd
    · rw [if_pos h]
      exact ih c (dist c)
    · rw [if_neg h]
      exact ih b bd

/-- The selection loop keeps the earliest candidate of minimal distance. -/
theorem bestLoop_invariant (dist : CapturePosition → ℚ) :
    ∀ (l : List CapturePosition) (b : CapturePosition),
      List.Pairwise (fun x y : CapturePosition => x.index < y.index) (b :: l) →
      ∃ b', bestLoop dist l (some (b, dist b)) = some (b', dist b') ∧
        (b' = b ∨ b' ∈ l) ∧
        dist b' ≤ dist b ∧
        (∀ c ∈ l, dist b' ≤ dist c) ∧
        (b' ≠ b → dist b' < dist b) ∧
        (∀ c, (c = b ∨ c ∈ l) → dist c = dist b' → b'.index ≤ c.index) := by
  intro l
  induction l with
  | nil =>
    intro b _
    refine ⟨b, rfl, Or.inl rfl, le_refl _, ?_, ?_, ?_⟩
    · intro c hc
      cases hc
    · intro hne
      exact absurd rfl hne
    · intro c hc hd
      rcases hc with rfl | hc
      · exact le_refl _
      · cases hc
  | cons c rest ih =>
    intro b hp
    have hbc : b.index < c.index := (List.pairwise_cons.mp hp).1 c (by simp)
    have hp_crest : List.Pairwise (fun x y : CapturePosition => x.index < y.index)
        (c :: rest) := (List.pairwise_cons.mp hp).2
    have hp_brest : List.Pairwise (fun x y : CapturePosition => x.index < y.index)
        (b :: rest) := hp.sublist (List.Sublist.cons₂ b (List.Sublist.cons c (List.Sublist.refl rest)))
    rw [bestLoop]
    by_cases hlt : dist c < dist b
    · rw [if_pos hlt]
      obtain ⟨b', heq, hmem, hle, hall, hstrict, hties⟩ := ih c hp_crest
      refine ⟨b', heq, ?_, ?_, ?_, ?_, ?_⟩
      · rcases hmem with rfl | h
        · exact Or.inr (by simp)
        · exact Or.inr (by simp [h])
      · exact le_of_lt (lt_of_le_of_lt hle hlt)
      · intro x hx
        rcases List.mem_cons.mp hx with rfl | hx
        · exact hle
        · exact hall x hx
      · intro _
        exact lt_of_le_of_lt hle hlt
      · intro x hx hdx
        rcases hx with rfl | hx
        · exact absurd (hdx ▸ lt_of_le_of_lt hle hlt) (lt_irrefl _)
        · rcases List.mem_cons.mp hx with rfl | hx
          · exact hties x (Or.inl rfl) hdx
          · exact hties x (Or.inr hx) hdx
    · rw [if_neg hlt]
      have hbc_le : dist b ≤ dist c := not_lt.mp hlt
      obtain ⟨b', heq, hmem, hle, hall, hstrict, hties⟩ := ih b hp_brest
      refine ⟨b', heq, ?_, hle, ?_, hstrict, ?_⟩
      · rcases hmem with rfl | h
        · exact Or.inl rfl
        · exact Or.inr (by simp [h])
      · intro x hx
        rcases List.mem_cons.mp hx with rfl | hx
        · exact le_trans hle hbc_le
        · exact hall x hx
      · intro x hx hdx
        rcases hx with rfl | hx
        · exact hties x (Or.inl rfl) hdx
        · rcases List.mem_cons.mp hx with rfl | hx
          · by_cases hbb : b' = b
            · subst hbb
              exact le_of_lt hbc
            · exact absurd
                (lt_of_lt_of_le (hstrict hbb) (le_trans hbc_le (le_of_eq hdx)))
                (lt_irrefl _)
          · exact hties x (Or.inr hx) hdx

theorem nextUncapturedGo_none_iff (captured : List ℕ) (curH curP startH : ℚ) :
    ∀ rings : List RingName,
      nextUncapturedGo captured curH curP startH rings = none ↔
        ∀ r ∈ rings, ringCandidates captured r = [] := by
  intro rings
  induction rings with
  | nil => simp [nextUncapturedGo]
  | cons r rs ih =>
    rw [nextUncapturedGo]
    by_cases h : (ringCandidates captured r).length = 0
    · rw [if_pos h]
      have hempty : ringCandidates captured r = [] := List.length_eq_zero.mp h
      simp only [List.forall_mem_cons, hempty, true_and]
      exact ih
    · rw [if_neg h]
      have hne : ringCandidates captured r ≠ [] := fun hh => h (by rw [hh]; rfl)
      obtain ⟨c, rest, hcr⟩ := List.exists_cons_of_ne_nil hne
      rw [hcr]
      simp only [bestLoop]
      obtain ⟨b', bd', hb⟩ := bestLoop_some (weightedDist curH curP startH) rest c
        (weightedDist curH curP startH c)
      rw [hb]
      constructor
      · intro habs
        cases habs
      · intro hall
        exact absurd (hall r (by simp)) (by rw [hcr]; simp)

theorem nextUncapturedGo_some_spec (captured : List ℕ) (curH curP startH : ℚ) :
    ∀ (rings : List RingName) (idx : ℕ),
      nextUncapturedGo captured curH curP startH rings = some idx →
      ∃ (r : RingName) (pos : CapturePosition),
        rings.find?
          (fun s => CAPTURE_POSITIONS.any
            (fun p => decide (p.ring = s) && !(captured.contains p.index))) = some r ∧
        pos ∈ ringCandidates captured r ∧ pos.index = idx ∧
        (∀ q ∈ ringCandidates captured r,
          weightedDist curH curP startH pos ≤ weightedDist curH curP startH q ∧
          (weightedDist curH curP startH q = weightedDist curH curP startH pos →
            pos.index ≤ q.index)) := by
  intro rings
  induction rings with
  | nil =>
    intro idx h
    cases h
  | cons r rs ih =>
    intro idx h
    rw [nextUncapturedGo] at h
    by_cases hlen : (ringCandidates captured r).length = 0
    · rw [if_pos hlen] at h
      obtain ⟨r', pos, hfind, hmem, hidx, hmin⟩ := ih idx h
      refine ⟨r', pos, ?_, hmem, hidx, hmin⟩
      have hempty := List.length_eq_zero.mp hlen
      have hanyf := (ringCandidates_empty_iff captured r).mp hempty
      rw [List.find?_cons_of_neg _ (by rw [hanyf]; exact Bool.false_ne_true), hfind]
    · rw [if_neg hlen] at h
      have hne : ringCandidates captured r ≠ [] := fun hh => hlen (by rw [hh]; rfl)
      obtain ⟨c, rest, hcr⟩ := List.exists_cons_of_ne_nil hne
      have hpair := ringCandidates_pairwise captured r
      rw [hcr] at hpair
      rw [hcr] at h
      simp only [bestLoop] at h
      obtain ⟨b', heq, hmem, hle, hall, hstrict, hties⟩ :=
        bestLoop_invariant (weightedDist curH curP startH) rest c hpair
      simp only [heq] at h
      have hidx : b'.index = idx := Option.some.inj h
      have hany : (CAPTURE_POSITIONS.any
          (fun p => decide (p.ring = r) && !(captured.contains p.index))) = true := by
        cases hb : CAPTURE_POSITIONS.any
            (fun p => decide (p.ring = r) && !(captured.contains p.index))
        · exact absurd ((ringCandidates_empty_iff captured r).mpr hb) hne
        · rfl
      refine ⟨r, b', List.find?_cons_of_pos _ hany, ?_, hidx, ?_⟩
      · rw [hcr]
        rcases hmem with rfl | hm
        · exact List.mem_cons_self _ _
        · exact List.mem_cons_of_mem _ hm
      · intro q hq
        rw [hcr] at hq
        rcases List.mem_cons.mp hq with rfl | hq
        · exact ⟨hle, fun hd => hties q (Or.inl rfl) hd⟩
        · exact ⟨hall q hq, fun hd => hties q (Or.inr hq) hd⟩

/-! ### Claim C3: next-position selection -/

/-- C3: the selector scans rings in the fixed priority order equator, upper,
lower, zenith, nadir; it returns `none` exactly when every catalog index
0..21 is captured; otherwise it returns an uncaptured position of the first
priority ring still holding one, minimizing the weighted distance
`headingDelta + 1.5·pitchDelta`, ties broken by lowest catalog index. -/
theorem getNextUncaptured_spec (captured : List ℕ) (curH curP startH : ℚ) :
    (getNextUncaptured captured curH curP startH = none ↔
      ∀ i : ℕ, i < 22 → captured.contains i = true) ∧
    (∀ idx : ℕ, getNextUncaptured captured curH curP startH = some idx →
      ∃ pos ∈ CAPTURE_POSITIONS, pos.index = idx ∧
        captured.contains pos.index = false ∧
        firstUncapturedRing captured = some pos.ring ∧
        (∀ q ∈ CAPTURE_POSITIONS, q.ring = pos.ring →
          captured.contains q.index = false →
          weightedDist curH curP startH pos ≤ weightedDist curH curP startH q ∧
          (weightedDist curH curP startH q = weightedDist curH curP startH pos →
            pos.index ≤ q.index))) := by
  constructor
  · rw [getNextUncaptured, nextUncapturedGo_none_iff]
    constructor
    · intro hall i hi
      obtain ⟨p, hpmem, hpidx⟩ := catalog_index_surj ⟨i, hi⟩
      have hr : p.ring ∈ RING_PRIORITY := by
        cases hx : p.ring <;> simp [RING_PRIORITY]
      have hempty := hall p.ring hr
      by_contra hc
      have hfalse : captured.contains i = false := by
        cases hb : captured.contains i
        · rfl
        · exact absurd hb hc
      have hin : p ∈ ringCandidates captured p.ring :=
        mem_ringCandidates.mpr ⟨hpmem, rfl, by rw [hpidx]; exact hfalse⟩
      rw [hempty] at hin
      cases hin
    · intro hall r _
      rw [ringCandidates, List.filter_eq_nil_iff]
      intro p hp hand
      obtain ⟨-, hnc⟩ := Bool.and_eq_true _ _ |>.mp hand
      have hcon : captured.contains p.index = false := by
        cases hb : captured.contains p.index
        · rfl
        · rw [hb] at hnc
          exact absurd hnc (by decide)
      rw [hall p.index (catalog_index_lt p hp)] at hcon
      cases hcon
  · intro idx h
    rw [getNextUncaptured] at h
    obtain ⟨r, pos, hfind, hmem, hidx, hmin⟩ :=
      nextUncapturedGo_some_spec captured curH curP startH RING_PRIORITY idx h
    obtain ⟨hpos_mem, hpos_ring, hpos_unc⟩ := mem_ringCandidates.mp hmem
    refine ⟨pos, hpos_mem, hidx, hpos_unc, ?_, ?_⟩
    · rw [firstUncapturedRing, hfind, hpos_ring]
    · intro q hq hqr hqc
      exact hmin q (mem_ringCandidates.mpr ⟨hq, by rw [hqr, hpos_ring], hqc⟩)

theorem getNextUncaptured_spec_witness :
    getNextUncaptured (List.range 22) 0 0 0 = none :=
  (getNextUncaptured_spec (List.range 22) 0 0 0).1.mpr (by decide)

/-! ### Capture-session state (src/web/src/app/capture/page.tsx) -/

/-- The mutable state of one capture session: the position-index → data-URL
map (`capturedMap`) and the session start heading (`startHeadingRef`,
`none` = unset). -/
structure SessionState where
  capturedMap : List (ℕ × String)
  startHeading : Option ℚ
deriving Repr, DecidableEq

/-- The freshly initialized session: `useState(new Map())` and
`useRef<number | null>(null)`. -/
def initialState : SessionState := ⟨[], none⟩

/-- JS `Map.set`: replace the value under an existing key in place, append
a new key at the end. -/
def mapSet (m : List (ℕ × String)) (k : ℕ) (v : String) : List (ℕ × String) :=
  if m.any (fun e => e.1 = k) then
    m.map (fun e => if e.1 = k then (k, v) else e)
  else m ++ [(k, v)]

/-- From `ensureStartHeading`: record the current heading as the session
start heading the first time one is available; otherwise leave the state
alone. -/
def ensureStartHeading (s : SessionState) (heading : Option ℚ) : SessionState :=
  match s.startHeading, heading with
  | none, some h => ⟨s.capturedMap, some h⟩
  | _, _ => s

/-- The `activeIndex` derivation of the capture page: `none` when complete,
otherwise the selector's suggestion with missing sensor values defaulted
to 0. -/
def activeIndexOf (s : SessionState) (heading pitch : Option ℚ) : Option ℕ :=
  let capturedSet := s.capturedMap.map (fun e => e.1)
  if TOTAL_POSITIONS ≤ capturedSet.length then none
  else getNextUncaptured capturedSet (heading.getD 0) (pitch.getD 0)
    (s.startHeading.getD 0)

/-- From `handleCapture`: no-op when complete or no active target; otherwise
record the start heading if unset and, when a frame was produced, store it
under the active index. -/
def handleCapture (s : SessionState) (heading pitch : Option ℚ)
    (frame : Option String) : SessionState :=
  match activeIndexOf s heading pitch with
  | none => s
  | some idx =>
    let s' := ensureStartHeading s heading
    match frame with
    | some url => ⟨mapSet s'.capturedMap idx url, s'.startHeading⟩
    | none => s'

/-- From `handleReset`: `setCapturedMap(new Map())` and
`startHeadingRef.current = null`. -/
def handleReset (_ : SessionState) : SessionState := ⟨[], none⟩

/-! ### Claim C9: reset restores the initial session -/

/-- C9: resetting any session state empties the captured map and clears the
start heading simultaneously, yielding exactly the freshly initialized state
(so every derived view, `getNextUncaptured` included, behaves as on first
call); and the capture action never clears a start heading once set — only
reset does. -/
theorem handleReset_spec :
    (∀ s : SessionState, handleReset s = initialState) ∧
    (∀ (s : SessionState) (curH curP : ℚ),
      getNextUncaptured ((handleReset s).capturedMap.map (fun e => e.1)) curH curP
          ((handleReset s).startHeading.getD 0)
        = getNextUncaptured (initialState.capturedMap.map (fun e => e.1)) curH curP
            (initialState.startHeading.getD 0)) ∧
    (∀ (s : SessionState) (heading pitch : Option ℚ) (frame : Option String) (h : ℚ),
      s.startHeading = some h →
      (handleCapture s heading pitch frame).startHeading = some h) := by
  refine ⟨fun s => rfl, fun s curH curP => rfl, ?_⟩
  intro s heading pitch frame h hs
  obtain ⟨m, sh⟩ := s
  replace hs : sh = some h := hs
  subst hs
  rw [handleCapture]
  cases hA : activeIndexOf ⟨m, some h⟩ heading pitch with
  | none => rfl
  | some idx =>
    have hs' : ensureStartHeading ⟨m, some h⟩ heading = ⟨m, some h⟩ := by
      cases heading <;> rfl
    rw [hs']
    cases frame with
    | none => rfl
    | some url => rfl

theorem handleReset_spec_witness :
    handleReset ⟨[(3, "img")], some 5⟩ = initialState ∧
    (handleCapture ⟨[], some 5⟩ (some 10) (some 0) (some ("f"))).startHeading
      = some 5 := by
  have h := handleReset_spec
  exact ⟨h.1 ⟨[(3, "img")], some 5⟩,
    h.2.2 ⟨[], some 5⟩ (some 10) (some 0) (some ("f")) 5 rfl⟩

/-! ### Pinhole grid projection (src/web/src/components/capture/capture-grid.tsx) -/

/-- From `const DEG = Math.PI / 180`. -/
noncomputable def DEG : ℝ := Real.pi / 180

/-- Projected screen point, from `interface Pt2D`. -/
structure Pt2D where
  x : ℝ
  y : ℝ
  behind : Bool

/-- From `proj(gridH, gridP, camH, camP, startH, f, cx, cy)`: heading
relative to the camera, spherical-to-cartesian (Y up, Z forward, X right),
rotation by camera pitch about X, behind-camera cut at `zR ≤ 0.01`, then
the pinhole projection `(cx + f·x/zR, cy - f·yR/zR)`. -/
noncomputable def proj (gridH gridP camH camP startH f cx cy : ℝ) : Pt2D :=
  let relH := (startH + gridH - camH) * DEG
  let p := gridP * DEG
  let cp := camP * DEG
  let x := Real.cos p * Real.sin relH
  let y := Real.sin p
  let z := Real.cos p * Real.cos relH
  let yR := y * Real.cos cp - z * Real.sin cp
  let zR := y * Real.sin cp + z * Real.cos cp
  if zR ≤ 0.01 then ⟨0, 0, true⟩
  else ⟨cx + f * (x / zR), cy - f * (yR / zR), false⟩

/-! ### Claim C4: pinhole projection on-axis and 90° off-axis -/

theorem cos_of_quarter_rep {t : ℝ}
    (h : ∃ k : ℤ, t = 90 + 360 * (k : ℝ) ∨ t = -90 + 360 * (k : ℝ)) :
    Real.cos (t * DEG) = 0 := by
  obtain ⟨k, hk | hk⟩ := h
  · have : t * DEG = Real.pi / 2 + (k : ℝ) * (2 * Real.pi) := by
      rw [hk, DEG]
      ring
    rw [this, Real.cos_add_int_mul_two_pi, Real.cos_pi_div_two]
  · have : t * DEG = -(Real.pi / 2) + (k : ℝ) * (2 * Real.pi) := by
      rw [hk, DEG]
      ring
    rw [this, Real.cos_add_int_mul_two_pi, Real.cos_neg, Real.cos_pi_div_two]

/-- C4 (amended): a grid point whose absolute heading equals the camera
heading and whose pitch equals the camera pitch is not behind and projects
exactly to the screen center; a grid point exactly 90° off-axis in heading
has forward component `zR = sin(gridP·DEG)·sin(camP·DEG)`, so whenever the
grid point or the camera sits at pitch 0 that component is 0 ≤ 0.01 and the
point is flagged behind-camera (for equal non-zero pitches it can be in
front — see the counterexample). -/
theorem proj_center_and_offaxis :
    (∀ gridH gridP camH camP startH f cx cy : ℝ,
      startH + gridH = camH → gridP = camP →
      proj gridH gridP camH camP startH f cx cy = ⟨cx, cy, false⟩) ∧
    (∀ gridH gridP camH camP startH f cx cy : ℝ,
      (∃ k : ℤ, startH + gridH - camH = 90 + 360 * (k : ℝ) ∨
        startH + gridH - camH = -90 + 360 * (k : ℝ)) →
      (gridP = 0 ∨ camP = 0) →
      proj gridH gridP camH camP startH f cx cy = ⟨0, 0, true⟩) := by
  constructor
  · intro gridH gridP camH camP startH f cx cy h1 h2
    subst h2
    have hrel : (startH + gridH - camH) * DEG = 0 := by rw [h1]; ring
    simp only [proj, hrel, Real.cos_zero, Real.sin_zero, mul_zero, mul_one]
    have hone : Real.sin (gridP * DEG) * Real.sin (gridP * DEG)
        + Real.cos (gridP * DEG) * Real.cos (gridP * DEG) = 1 := by
      linear_combination Real.sin_sq_add_cos_sq (gridP * DEG)
    rw [hone, if_neg (by norm_num)]
    have hy : Real.sin (gridP * DEG) * Real.cos (gridP * DEG)
        - Real.cos (gridP * DEG) * Real.sin (gridP * DEG) = 0 := by ring
    rw [hy]
    norm_num
  · intro gridH gridP camH camP startH f cx cy hrel hp
    have hcos : Real.cos ((startH + gridH - camH) * DEG) = 0 := cos_of_quarter_rep hrel
    have hsin : Real.sin (gridP * DEG) * Real.sin (camP * DEG) = 0 := by
      rcases hp with h | h
      · rw [h]
        simp [DEG]
      · rw [h]
        simp [DEG]
    simp only [proj, hcos, mul_zero, zero_mul, add_zero]
    rw [if_pos (by rw [hsin]; norm_num)]

theorem proj_center_witness :
    proj 40 25 70 25 30 2 100 200 = ⟨100, 200, false⟩ :=
  proj_center_and_offaxis.1 40 25 70 25 30 2 100 200 (by norm_num) rfl

/-- C4 counterexample to the claim as stated: with the camera at pitch 45°
and a grid point at pitch 45° whose heading is exactly 90° off-axis
(`startH + gridH - camH = 90`), the forward component is
`sin(π/4)·sin(π/4) = 1/2 > 0.01`, so the point is NOT flagged behind. -/
theorem proj_offaxis_counterexample :
    ((0 : ℝ) + 90 - 0 = 90) ∧ (proj 90 45 0 45 0 1 0 0).behind = false := by
  refine ⟨by norm_num, ?_⟩
  have h1 : ((0 : ℝ) + 90 - 0) * DEG = Real.pi / 2 := by rw [DEG]; ring
  have h2 : (45 : ℝ) * DEG = Real.pi / 4 := by rw [DEG]; ring
  simp only [proj, h1, h2, Real.cos_pi_div_two, Real.sin_pi_div_four,
    Real.cos_pi_div_four, mul_zero, zero_mul, add_zero]
  have hzR : Real.sqrt 2 / 2 * (Real.sqrt 2 / 2) = 1 / 2 := by
    rw [div_mul_div_comm, Real.mul_self_sqrt (by norm_num : (0:ℝ) ≤ 2)]
    norm_num
  rw [hzR, if_neg (by norm_num)]

/-! ### Orthographic minimap projection (SphereGuide, src/unnamed/part_003) -/

/-- Projected dot, from `interface ProjectedDot`. -/
structure ProjectedDot where
  x : ℝ
  y : ℝ
  z : ℝ
  pos : CapturePosition

/-- From `projectPosition(pos, rotYaw, rotPitch, R, cx, cy, startHeading)`:
spherical-to-cartesian of the absolute heading/pitch, yaw rotation about Y,
pitch rotation about X, orthographic screen mapping with flipped Y and the
rotated `z` kept as depth. -/
noncomputable def projectPosition (pos : CapturePosition)
    (rotYaw rotPitch R cx cy startHeading : ℝ) : ProjectedDot :=
  let posHeadingRad := (startHeading + (pos.heading : ℝ)) * Real.pi / 180
  let posPitchRad := (pos.pitch : ℝ) * Real.pi / 180
  let x := Real.cos posPitchRad * Real.sin posHeadingRad
  let y := Real.sin posPitchRad
  let z := Real.cos posPitchRad * Real.cos posHeadingRad
  let x1 := x * Real.cos rotYaw - z * Real.sin rotYaw
  let z1 := x * Real.sin rotYaw + z * Real.cos rotYaw
  let y1 := y * Real.cos rotPitch - z1 * Real.sin rotPitch
  let z2 := y * Real.sin rotPitch + z1 * Real.cos rotPitch
  ⟨cx + x1 * R, cy - y1 * R, z2, pos⟩

/-- The per-frame projection pass of `SphereGuide.draw`: every catalog
position projected with `rotYaw = (-currentHeading + startHeading)·π/180`
and `rotPitch = -currentPitch·π/180`. -/
noncomputable def minimapProjected (curH curP startH R cx cy : ℝ) :
    List ProjectedDot :=
  CAPTURE_POSITIONS.map (fun pos =>
    projectPosition pos ((-curH + startH) * Real.pi / 180)
      ((-curP) * Real.pi / 180) R cx cy startH)

/-- The depth sort of `SphereGuide.draw` (`.sort((a, b) => a.z - b.z)`):
ascending by `z`. -/
noncomputable def sortByZ (l : List ProjectedDot) : List ProjectedDot :=
  @List.insertionSort ProjectedDot (fun a b => a.z ≤ b.z)
    (fun a b => Real.decidableLE a.z b.z) l

/-- The dots the draw loop actually renders: the depth-sorted list minus
every dot skipped by `if (p.z < -0.1) continue`. -/
noncomputable def minimapDrawList (curH curP startH R cx cy : ℝ) :
    List ProjectedDot :=
  (sortByZ (minimapProjected curH curP startH R cx cy)).filter
    (fun p => !(decide (p.z < -0.1)))

/-- Spec-side transcription of the documented minimap projection: unit-sphere
point `x = cos(pitch)·sin(absH)`, `y = sin(pitch)`, `z = cos(pitch)·cos(absH)`
for the absolute heading `startH + heading`; yaw rotation by
`-currentHeading + startHeading` about Y, then pitch rotation by
`-currentPitch` about X; screen `x' = cx + x·R`, `y' = cy - y·R`, rotated `z`
as depth. -/
noncomputable def specMinimapDot (pos : CapturePosition)
    (curH curP startH R cx cy : ℝ) : ProjectedDot :=
  let absH := (startH + (pos.heading : ℝ)) * Real.pi / 180
  let pit := (pos.pitch : ℝ) * Real.pi / 180
  let yaw := (-curH + startH) * Real.pi / 180
  let pr := (-curP) * Real.pi / 180
  let x0 := Real.cos pit * Real.sin absH
  let y0 := Real.sin pit
  let z0 := Real.cos pit * Real.cos absH
  let xr := x0 * Real.cos yaw - z0 * Real.sin yaw
  let zr := x0 * Real.sin yaw + z0 * Real.cos yaw
  let yr := y0 * Real.cos pr - zr * Real.sin pr
  let zrr := y0 * Real.sin pr + zr * Real.cos pr
  ⟨cx + xr * R, cy - yr * R, zrr, pos⟩

theorem sortByZ_sorted (l : List ProjectedDot) :
    List.Sorted (fun a b : ProjectedDot => a.z ≤ b.z) (sortByZ l) := by
  haveI : IsTotal ProjectedDot (fun a b : ProjectedDot => a.z ≤ b.z) :=
    ⟨fun a b => le_total a.z b.z⟩
  haveI : IsTrans ProjectedDot (fun a b : ProjectedDot => a.z ≤ b.z) :=
    ⟨fun _ _ _ hab hbc => le_trans hab hbc⟩
  exact @List.sorted_insertionSort ProjectedDot (fun a b : ProjectedDot => a.z ≤ b.z)
    (fun a b => Real.decidableLE a.z b.z) _ _ l

theorem sortByZ_mem (l : List ProjectedDot) (d : ProjectedDot) :
    d ∈ sortByZ l ↔ d ∈ l := by
  rw [sortByZ]
  exact List.mem_insertionSort _

theorem drawFilter_sorted (f : ProjectedDot → Bool) (l : List ProjectedDot) :
    List.Sorted (fun a b : ProjectedDot => a.z ≤ b.z) ((sortByZ l).filter f) :=
  (sortByZ_sorted l).filter f

theorem drawFilter_mem (f : ProjectedDot → Bool) (l : List ProjectedDot)
    (d : ProjectedDot) :
    d ∈ (sortByZ l).filter f ↔ d ∈ l ∧ f d = true := by
  rw [List.mem_filter, sortByZ_mem]

/-! ### Claim C7: minimap projection, culling and draw order -/

/-- C7: the minimap pass projects every position exactly by the documented
orthographic formula (unit-sphere conversion, yaw then pitch rotation,
`x' = cx + x·R`, `y' = cy - y·R`, rotated `z` as depth); a dot is discarded
exactly when its depth satisfies `z < -0.1`; and the surviving dots are
drawn in ascending-`z` (back-to-front) order. -/
theorem minimap_projection_spec :
    (∀ (pos : CapturePosition) (curH curP startH R cx cy : ℝ),
      projectPosition pos ((-curH + startH) * Real.pi / 180)
          ((-curP) * Real.pi / 180) R cx cy startH
        = specMinimapDot pos curH curP startH R cx cy) ∧
    (∀ curH curP startH R cx cy : ℝ,
      List.Sorted (fun a b : ProjectedDot => a.z ≤ b.z)
        (minimapDrawList curH curP startH R cx cy)) ∧
    (∀ (curH curP startH R cx cy : ℝ) (d : ProjectedDot),
      d ∈ minimapDrawList curH curP startH R cx cy ↔
        d ∈ minimapProjected curH curP startH R cx cy ∧ ¬(d.z < -0.1)) := by
  refine ⟨fun pos curH curP startH R cx cy => rfl, ?_, ?_⟩
  · intro curH curP startH R cx cy
    rw [minimapDrawList]
    exact drawFilter_sorted _ _
  · intro curH curP startH R cx cy d
    rw [minimapDrawList, drawFilter_mem]
    constructor
    · rintro ⟨hmem, hb⟩
      refine ⟨hmem, ?_⟩
      intro hlt
      rw [decide_eq_true hlt] at hb
      cases hb
    · rintro ⟨hmem, hlt⟩
      refine ⟨hmem, ?_⟩
      rw [decide_eq_false hlt]
      rfl

end SpaceClone
